import Mathlib

/-!
Shallow embedding of the string-case-conversion utilities of this
repository: `toKebabCase` (chain_prompt.js), `toDotCase` and the
`toCamelCase` stub (basic_prompt.js).  Strings are modelled as
`List Char`; each JavaScript regex step of the pipelines is embedded
as an explicit recursive function on character lists.
-/

set_option autoImplicit false

namespace CaseConv

/-- A JavaScript string, modelled as a list of Unicode scalar values. -/
abbrev Str := List Char

/-- The space character (code 32). -/
def spaceChar : Char := Char.ofNat 32

/-- The hyphen character (code 45). -/
def hyphenChar : Char := Char.ofNat 45

/-- The dot character (code 46). -/
def dotChar : Char := Char.ofNat 46

/-- The underscore character (code 95). -/
def underscoreChar : Char := Char.ofNat 95

/-- The character class of the JavaScript regex `\s` (also the set removed
by `String.prototype.trim`): tab, LF, VT, FF, CR, space, NBSP, Ogham space,
the U+2000 to U+200A spaces, LS, PS, NNBSP, MMSP, ideographic space, BOM. -/
def isSpaceJS (c : Char) : Bool :=
  decide (c.toNat = 9 ∨ c.toNat = 10 ∨ c.toNat = 11 ∨ c.toNat = 12 ∨
    c.toNat = 13 ∨ c.toNat = 32 ∨ c.toNat = 160 ∨ c.toNat = 5760 ∨
    (8192 ≤ c.toNat ∧ c.toNat ≤ 8202) ∨ c.toNat = 8232 ∨ c.toNat = 8233 ∨
    c.toNat = 8239 ∨ c.toNat = 8287 ∨ c.toNat = 12288 ∨ c.toNat = 65279)

/-- ASCII uppercase letter, the regex class `[A-Z]`. -/
def isUpperAscii (c : Char) : Bool :=
  decide (65 ≤ c.toNat ∧ c.toNat ≤ 90)

/-- ASCII lowercase letter, the regex class `[a-z]`. -/
def isLowerAscii (c : Char) : Bool :=
  decide (97 ≤ c.toNat ∧ c.toNat ≤ 122)

/-- ASCII digit, the regex class `[0-9]`. -/
def isDigitAscii (c : Char) : Bool :=
  decide (48 ≤ c.toNat ∧ c.toNat ≤ 57)

/-- The JavaScript regex class `\w`: ASCII letters, digits and underscore. -/
def isWordChar (c : Char) : Bool :=
  isUpperAscii c || isLowerAscii c || isDigitAscii c || decide (c.toNat = 95)

/-- The ASCII fragment of the Unicode property `\p{P}` (general category
Punctuation): the ASCII characters of categories Pc, Pd, Ps, Pe, Po.
The codes are 33 34 35 37 38 39 40 41 42 44 45 46 47 58 59 63 64
91 92 93 95 123 125.  Non-ASCII punctuation is not modelled; theorems
about `toDotCase` therefore restrict their inputs to ASCII. -/
def isPunctAscii (c : Char) : Bool :=
  decide (c.toNat = 33 ∨ c.toNat = 34 ∨ c.toNat = 35 ∨ c.toNat = 37 ∨
    c.toNat = 38 ∨ c.toNat = 39 ∨ c.toNat = 40 ∨ c.toNat = 41 ∨
    c.toNat = 42 ∨ c.toNat = 44 ∨ c.toNat = 45 ∨ c.toNat = 46 ∨
    c.toNat = 47 ∨ c.toNat = 58 ∨ c.toNat = 59 ∨ c.toNat = 63 ∨
    c.toNat = 64 ∨ c.toNat = 91 ∨ c.toNat = 92 ∨ c.toNat = 93 ∨
    c.toNat = 95 ∨ c.toNat = 123 ∨ c.toNat = 125)

/-- ASCII-level `String.prototype.toLowerCase`: maps `A`-`Z` to `a`-`z` and
leaves every other character unchanged.  (In `toKebabCase` the string being
lowercased contains only ASCII word characters, spaces and hyphens, so this
is exact there; in `toDotCase` theorems restrict inputs to ASCII.) -/
def toLowerAscii (c : Char) : Char :=
  if isUpperAscii c then Char.ofNat (c.toNat + 32) else c

/-- True when every character of the string is ASCII. -/
def asciiOnly (s : Str) : Bool :=
  s.all (fun c => decide (c.toNat < 128))

/-! ### The toKebabCase pipeline (chain_prompt.js, lines 32-48) -/

/-- `input.replace(/_/g, ' ')`: every underscore becomes a space. -/
def replaceUnderscores (s : Str) : Str :=
  s.map (fun c => if c.toNat = 95 then spaceChar else c)

/-- `.replace(/([a-z])([A-Z])/g, '$1 $2')`: a space is inserted between
each lowercase letter immediately followed by an uppercase letter.
(Matches of this pattern can never overlap, since the shared character
would have to be both lowercase and uppercase, so the global replace
inserts a space at every such adjacent pair.) -/
def insertCamelSpaces : Str → Str
  | [] => []
  | [c] => [c]
  | c1 :: c2 :: rest =>
    if isLowerAscii c1 && isUpperAscii c2 then
      c1 :: spaceChar :: insertCamelSpaces (c2 :: rest)
    else
      c1 :: insertCamelSpaces (c2 :: rest)

/-- Worker for `.replace(/([A-Z])+/g, ' $&')`; the flag records whether the
previous character was uppercase (i.e. we are inside an uppercase run). -/
def insertUpperRunSpacesAux : Bool → Str → Str
  | _, [] => []
  | prevUpper, c :: rest =>
    if isUpperAscii c then
      if prevUpper then c :: insertUpperRunSpacesAux true rest
      else spaceChar :: c :: insertUpperRunSpacesAux true rest
    else c :: insertUpperRunSpacesAux false rest

/-- `.replace(/([A-Z])+/g, ' $&')`: a space is inserted before each maximal
run of uppercase letters. -/
def insertUpperRunSpaces (s : Str) : Str :=
  insertUpperRunSpacesAux false s

/-- The class kept by `.replace(/[^\w\s-]/g, '')`. -/
def keepKebab (c : Char) : Bool :=
  isWordChar c || isSpaceJS c || decide (c.toNat = 45)

/-- Worker for `String.prototype.trimEnd`: removes the trailing run of
whitespace characters. -/
def trimEndJS : Str → Str
  | [] => []
  | c :: rest =>
    if isSpaceJS c && (trimEndJS rest).isEmpty then [] else c :: trimEndJS rest

/-- `String.prototype.trim`: removes leading and trailing whitespace. -/
def trimJS (s : Str) : Str :=
  trimEndJS (s.dropWhile isSpaceJS)

/-- Worker for `.replace(/\s+/g, ' ')`; the flag records whether the
previous character was whitespace (inside a whitespace run). -/
def collapseSpacesAux : Bool → Str → Str
  | _, [] => []
  | prevSpace, c :: rest =>
    if isSpaceJS c then
      if prevSpace then collapseSpacesAux true rest
      else spaceChar :: collapseSpacesAux true rest
    else c :: collapseSpacesAux false rest

/-- `.replace(/\s+/g, ' ')`: each maximal whitespace run becomes one space. -/
def collapseSpaces (s : Str) : Str :=
  collapseSpacesAux false s

/-- Worker for `.replace(/\s+/g, '-')`; each maximal whitespace run becomes
one hyphen. -/
def spaceRunsToHyphensAux : Bool → Str → Str
  | _, [] => []
  | prevSpace, c :: rest =>
    if isSpaceJS c then
      if prevSpace then spaceRunsToHyphensAux true rest
      else hyphenChar :: spaceRunsToHyphensAux true rest
    else c :: spaceRunsToHyphensAux false rest

/-- `.replace(/\s+/g, '-')`. -/
def spaceRunsToHyphens (s : Str) : Str :=
  spaceRunsToHyphensAux false s

/-- The leading-hyphen half of `.replace(/^-+|-+$/g, '')`. -/
def stripLeadingHyphens (s : Str) : Str :=
  s.dropWhile (fun c => decide (c.toNat = 45))

/-- The trailing-hyphen half of `.replace(/^-+|-+$/g, '')`. -/
def stripTrailingHyphens : Str → Str
  | [] => []
  | c :: rest =>
    if decide (c.toNat = 45) && (stripTrailingHyphens rest).isEmpty then []
    else c :: stripTrailingHyphens rest

/-- `.replace(/^-+|-+$/g, '')`: removes the leading and the trailing run of
hyphens. -/
def stripHyphens (s : Str) : Str :=
  stripTrailingHyphens (stripLeadingHyphens s)

/-- The string-input path of `toKebabCase` (chain_prompt.js lines 23-48):
the empty-string early return, then the normalization chain (underscores to
spaces, camelCase spacing, uppercase-run spacing, removal of characters
outside `\w\s-`, trim), whitespace collapsing, lowercasing, whitespace to
hyphens, and stripping of leading/trailing hyphens. -/
def toKebabCaseStr (s : Str) : Str :=
  if s.isEmpty then []
  else
    stripHyphens (spaceRunsToHyphens
      ((collapseSpaces (trimJS
        ((insertUpperRunSpaces (insertCamelSpaces (replaceUnderscores s))).filter
          keepKebab))).map toLowerAscii))

/-! ### The toDotCase pipeline (basic_prompt.js, lines 61-93) -/

/-- The separator class of the split regex `[\s\-_\p{P}]` of `toDotCase`
(with `\p{P}` modelled on ASCII, see `isPunctAscii`). -/
def isSepDot (c : Char) : Bool :=
  isSpaceJS c || decide (c.toNat = 45) || decide (c.toNat = 95) || isPunctAscii c

/-- Worker for `.split(/[\s\-_\p{P}]+/gu).filter((word) => word.length > 0)`:
collects the maximal runs of non-separator characters, in order.  `acc`
holds the current run, reversed. -/
def splitWordsAux (acc : Str) : Str → List Str
  | [] => if acc.isEmpty then [] else [acc.reverse]
  | c :: rest =>
    if isSepDot c then
      if acc.isEmpty then splitWordsAux [] rest
      else acc.reverse :: splitWordsAux [] rest
    else splitWordsAux (c :: acc) rest

/-- `.split(/[\s\-_\p{P}]+/gu).filter((word) => word.length > 0)`: the
nonempty fragments between separator runs. -/
def splitWords (s : Str) : List Str :=
  splitWordsAux [] s

/-- `.join('.')`: the words joined with a single dot between them. -/
def joinDot : List Str → Str
  | [] => []
  | [w] => w
  | w :: ws => w ++ dotChar :: joinDot ws

/-- The string-input path of `toDotCase` (basic_prompt.js lines 72-93):
trim, empty check, split on separator runs and drop empty fragments,
empty-words check, lowercase each word and join with dots. -/
def toDotCaseStr (s : Str) : Str :=
  if (trimJS s).isEmpty then []
  else if (splitWords (trimJS s)).isEmpty then []
  else joinDot ((splitWords (trimJS s)).map (fun w => w.map toLowerAscii))

/-! ### The JavaScript value layer: validation and error messages -/

/-- The JavaScript values the public functions are exercised with: strings,
`null`, `undefined`, numbers, booleans, and plain objects / arrays.  An
object or array carries the text that `String(value)` renders it as (a plain
object renders as `[object Object]`, an array as its comma-joined
elements). -/
inductive JSValue : Type where
  | nullV : JSValue
  | undefinedV : JSValue
  | strV : Str → JSValue
  | numberV : Int → JSValue
  | boolV : Bool → JSValue
  | objectV : Str → JSValue
  | arrayV : Str → JSValue
deriving DecidableEq

/-- The JavaScript `typeof` operator (note `typeof null` is `"object"`,
and `typeof` of an array is `"object"`). -/
def jsTypeof : JSValue → Str
  | .nullV => ("object".toList)
  | .undefinedV => ("undefined".toList)
  | .strV _ => ("string".toList)
  | .numberV _ => ("number".toList)
  | .boolV _ => ("boolean".toList)
  | .objectV _ => ("object".toList)
  | .arrayV _ => ("object".toList)

/-- The rendering `String(value)` used when a value is interpolated into a
template literal.  Numbers are modelled as integers and render in decimal. -/
def jsToString : JSValue → Str
  | .nullV => ("null".toList)
  | .undefinedV => ("undefined".toList)
  | .strV s => s
  | .numberV n => ((toString n).toList)
  | .boolV b => if b then ("true".toList) else ("false".toList)
  | .objectV r => r
  | .arrayV r => r

/-- The result of calling one of the public functions: a returned value or
a thrown `TypeError` carrying its message. -/
inductive JSResult (α : Type) : Type where
  | ok : α → JSResult α
  | typeError : Str → JSResult α
deriving DecidableEq

/-- The `TypeError` message of `toKebabCase` (chain_prompt.js line 19):
`Expected string input, received ${typeof input}. Value: ${input}`. -/
def kebabErrorMsg (v : JSValue) : Str :=
  ("Expected string input, received ".toList) ++ jsTypeof v ++
    (". Value: ".toList) ++ jsToString v

/-- The `TypeError` message of `toDotCase` (basic_prompt.js line 69):
`Expected a string, null, or undefined, but received ${typeof input}: ${input}`. -/
def dotErrorMsg (v : JSValue) : Str :=
  ("Expected a string, null, or undefined, but received ".toList) ++
    jsTypeof v ++ (": ".toList) ++ jsToString v

/-- `toKebabCase` on an arbitrary value (chain_prompt.js lines 10-49):
null/undefined return the empty string (after a console warning, a side
effect not modelled), non-strings throw, strings go to the pipeline. -/
def toKebabCaseJS : JSValue → JSResult Str
  | .nullV => .ok []
  | .undefinedV => .ok []
  | .strV s => .ok (toKebabCaseStr s)
  | v => .typeError (kebabErrorMsg v)

/-- `toDotCase` on an arbitrary value (basic_prompt.js lines 61-93). -/
def toDotCaseJS : JSValue → JSResult Str
  | .nullV => .ok []
  | .undefinedV => .ok []
  | .strV s => .ok (toDotCaseStr s)
  | v => .typeError (dotErrorMsg v)

/-- `toCamelCase` (basic_prompt.js lines 15-17): the body is the comment
`// TODO: Implement the function`, so the JavaScript function returns
`undefined` for every input and never throws. -/
def toCamelCaseJS : JSValue → JSValue :=
  fun _ => .undefinedV

/-- `typeof input === 'string'` on the modelled values. -/
def isStringV : JSValue → Bool
  | .strV _ => true
  | _ => false

/-- `input === null || input === undefined` on the modelled values. -/
def isAbsentV : JSValue → Bool
  | .nullV => true
  | .undefinedV => true
  | _ => false

/-! ### Observation helpers used in the statements -/

/-- True when some two adjacent characters of the string both equal `a`. -/
def hasAdjPair (a : Char) : Str → Bool
  | [] => false
  | [_] => false
  | c1 :: c2 :: rest =>
    (decide (c1 = a) && decide (c2 = a)) || hasAdjPair a (c2 :: rest)

/-- True when the last character of the string equals `a`. -/
def endsWithSep (a : Char) : Str → Bool
  | [] => false
  | [c] => decide (c = a)
  | _ :: c :: rest => endsWithSep a (c :: rest)

/-- True when `pat` occurs at the very front of the string. -/
def leadsWith : Str → Str → Bool
  | [], _ => true
  | _ :: _, [] => false
  | p :: ps, c :: cs => decide (p = c) && leadsWith ps cs

/-- True when `pat` occurs contiguously somewhere in the string. -/
def hasSegment (pat : Str) : Str → Bool
  | [] => pat.isEmpty
  | c :: cs => leadsWith pat (c :: cs) || hasSegment pat cs

/-! ### Claim theorems: literal scenarios and the stubbed function -/

/-- C1: the literal scenarios of spec section 8 hold exactly —
`toKebabCase` maps `hello world`, `hello_world`, `helloWorld`,
`hello   world` and `hello, world!` each to `hello-world`, and
`toDotCase` maps `HELLO_WORLD` and `hello!!!world???` each to
`hello.world`. -/
theorem c1_literal_scenarios :
    toKebabCaseJS (.strV ("hello world".toList)) = .ok ("hello-world".toList) ∧
    toKebabCaseJS (.strV ("hello_world".toList)) = .ok ("hello-world".toList) ∧
    toKebabCaseJS (.strV ("helloWorld".toList)) = .ok ("hello-world".toList) ∧
    toKebabCaseJS (.strV ("hello   world".toList)) = .ok ("hello-world".toList) ∧
    toKebabCaseJS (.strV ("hello, world!".toList)) = .ok ("hello-world".toList) ∧
    toDotCaseJS (.strV ("HELLO_WORLD".toList)) = .ok ("hello.world".toList) ∧
    toDotCaseJS (.strV ("hello!!!world???".toList)) = .ok ("hello.world".toList) := by
  refine ⟨?_, ?_, ?_, ?_, ?_, ?_, ?_⟩ <;> rfl

/-- C2: contrary to the claim (and to the jsdoc example on `toDotCase`
itself, which promises `toDotCase('helloWorld')` returns `hello.world`),
`toDotCase` splits only on separator characters and inserts no boundary at
a lowercase-to-uppercase transition: on `helloWorld` it returns the single
lowercased word `helloworld`. -/
theorem c2_dot_no_camel_boundary :
    toDotCaseJS (.strV ("helloWorld".toList)) = .ok ("helloworld".toList) := by
  rfl

/-- C4: for `toKebabCase` and `toDotCase` the empty string and a
whitespace-only string map to the empty string, but `toCamelCase` is an
unimplemented stub (its body is a TODO comment), so it returns `undefined`
rather than the empty string on both inputs — the claim fails for the
camel variant. -/
theorem c4_empty_inputs :
    toKebabCaseJS (.strV []) = .ok [] ∧
    toKebabCaseJS (.strV ("   ".toList)) = .ok [] ∧
    toDotCaseJS (.strV []) = .ok [] ∧
    toDotCaseJS (.strV ("   ".toList)) = .ok [] ∧
    toCamelCaseJS (.strV []) = .undefinedV ∧
    toCamelCaseJS (.strV ("   ".toList)) = .undefinedV := by
  refine ⟨?_, ?_, ?_, ?_, ?_, ?_⟩ <;> rfl

/-- C6: for the kebab and dot variants, `null` and `undefined` inputs each
return the empty string and no error is raised. -/
theorem c6_null_undefined :
    toKebabCaseJS .nullV = .ok [] ∧
    toKebabCaseJS .undefinedV = .ok [] ∧
    toDotCaseJS .nullV = .ok [] ∧
    toDotCaseJS .undefinedV = .ok [] := by
  refine ⟨?_, ?_, ?_, ?_⟩ <;> rfl

/-- C7: contrary to the claim (and to the jsdoc on `toCamelCase`, which
promises `convertThisString`), `toCamelCase` is an unimplemented TODO stub:
called on `convert-this-string` it returns `undefined`, not a string. -/
theorem c7_camel_stub :
    toCamelCaseJS (.strV ("convert-this-string".toList)) = .undefinedV := by
  rfl

/-! ### Character-level lemmas -/

theorem char_toNat_inj {a b : Char} (h : a.toNat = b.toNat) : a = b := by
  have h1 := Char.ofNat_toNat a
  have h2 := Char.ofNat_toNat b
  rw [← h1, ← h2, h]

theorem charOfNat_toNat_lower : ∀ n, n < 123 → 97 ≤ n → (Char.ofNat n).toNat = n := by
  decide

theorem isUpperAscii_bounds {c : Char} (h : isUpperAscii c = true) :
    65 ≤ c.toNat ∧ c.toNat ≤ 90 := by
  simpa [isUpperAscii] using h

theorem toLowerAscii_toNat {c : Char} (h : isUpperAscii c = true) :
    (toLowerAscii c).toNat = c.toNat + 32 := by
  obtain ⟨h1, h2⟩ := isUpperAscii_bounds h
  rw [toLowerAscii, if_pos h]
  exact charOfNat_toNat_lower (c.toNat + 32) (by omega) (by omega)

theorem toLowerAscii_eq_self {c : Char} (h : isUpperAscii c = false) :
    toLowerAscii c = c := by
  simp [toLowerAscii, h]

theorem isLowerAscii_toLowerAscii_of_upper {c : Char} (h : isUpperAscii c = true) :
    isLowerAscii (toLowerAscii c) = true := by
  obtain ⟨h1, h2⟩ := isUpperAscii_bounds h
  simp [isLowerAscii, toLowerAscii_toNat h]
  omega

theorem isUpperAscii_toLowerAscii (c : Char) : isUpperAscii (toLowerAscii c) = false := by
  by_cases h : isUpperAscii c = true
  · obtain ⟨h1, h2⟩ := isUpperAscii_bounds h
    simp [isUpperAscii, toLowerAscii_toNat h]
    omega
  · rw [toLowerAscii_eq_self (by simpa using h)]
    simpa using h

theorem toLowerAscii_idem (c : Char) :
    toLowerAscii (toLowerAscii c) = toLowerAscii c :=
  toLowerAscii_eq_self (isUpperAscii_toLowerAscii c)

/-! ### Generic list lemmas -/

theorem map_id_of {α : Type} {f : α → α} :
    ∀ l : List α, (∀ c ∈ l, f c = c) → l.map f = l
  | [], _ => rfl
  | c :: t, h => by
    rw [List.map_cons, h c (by simp), map_id_of t (fun d hd => h d (by simp [hd]))]

theorem dropWhile_head_false {p : Char → Bool} :
    ∀ (l : Str) {c : Char} {t : Str}, l.dropWhile p = c :: t → p c = false
  | [], c, t, h => by simp [List.dropWhile] at h
  | d :: r, c, t, h => by
    rw [List.dropWhile_cons] at h
    by_cases hp : p d = true
    · rw [if_pos hp] at h
      exact dropWhile_head_false r h
    · rw [if_neg hp] at h
      obtain ⟨rfl, -⟩ := List.cons.inj h
      simpa using hp

theorem dropWhile_eq_self_of_head {p : Char → Bool} :
    ∀ {l : Str}, (∀ c, l.head? = some c → p c = false) → l.dropWhile p = l := by
  intro l h
  cases l with
  | nil => rfl
  | cons c t =>
    rw [List.dropWhile_cons, if_neg]
    simp [h c rfl]

theorem dropWhile_eq_self_of {p : Char → Bool} {l : Str}
    (h : ∀ c ∈ l, p c = false) : l.dropWhile p = l := by
  cases l with
  | nil => rfl
  | cons d t =>
    rw [List.dropWhile_cons, if_neg]
    simp [h d (by simp)]

theorem mem_dropWhile {p : Char → Bool} {l : Str} {c : Char}
    (h : c ∈ l.dropWhile p) : c ∈ l := by
  rw [← List.takeWhile_append_dropWhile p l]
  exact List.mem_append.mpr (Or.inr h)

/-! ### Lemmas about the observation helpers -/

theorem hasAdjPair_cons_of_head_ne {a c : Char} {t : Str}
    (h : t.head? ≠ some a) : hasAdjPair a (c :: t) = hasAdjPair a t := by
  cases t with
  | nil => simp [hasAdjPair]
  | cons d r =>
    have hd : ¬(d = a) := by simpa using h
    simp [hasAdjPair, hd]

theorem hasAdjPair_cons_of_ne {a c : Char} {t : Str}
    (h : c ≠ a) : hasAdjPair a (c :: t) = hasAdjPair a t := by
  cases t with
  | nil => simp [hasAdjPair]
  | cons d r => simp [hasAdjPair, h]

theorem hasAdjPair_tail {a c : Char} {t : Str}
    (h : hasAdjPair a (c :: t) = false) : hasAdjPair a t = false := by
  cases t with
  | nil => rfl
  | cons d r =>
    simp only [hasAdjPair, Bool.or_eq_false_iff] at h
    exact h.2

theorem hasAdjPair_append_right {a : Char} :
    ∀ (x : Str) {y : Str}, hasAdjPair a (x ++ y) = false → hasAdjPair a y = false
  | [], _, h => h
  | c :: x', y, h => hasAdjPair_append_right x' (hasAdjPair_tail h)

theorem hasAdjPair_append_left {a : Char} :
    ∀ (x : Str) {y : Str}, hasAdjPair a (x ++ y) = false → hasAdjPair a x = false
  | [], _, _ => rfl
  | [_], _, _ => rfl
  | c1 :: c2 :: x', y, h => by
    have h' := hasAdjPair_append_left (c2 :: x') (y := y) (hasAdjPair_tail h)
    simp only [List.cons_append, hasAdjPair, Bool.or_eq_false_iff] at h ⊢
    exact ⟨h.1, h'⟩

theorem hasAdjPair_append_of {a : Char} {y : Str} :
    ∀ (x : Str), (∀ c ∈ x, c ≠ a) → hasAdjPair a y = false →
      hasAdjPair a (x ++ y) = false
  | [], _, hy => hy
  | c :: x', hx, hy => by
    rw [List.cons_append, hasAdjPair_cons_of_ne (hx c (by simp))]
    exact hasAdjPair_append_of x' (fun d hd => hx d (by simp [hd])) hy

theorem hasAdjPair_of_all_ne {a : Char} {l : Str}
    (h : ∀ c ∈ l, c ≠ a) : hasAdjPair a l = false := by
  have := hasAdjPair_append_of (y := []) l h rfl
  simpa using this

theorem endsWithSep_append {a : Char} {y : Str} (hy : y ≠ []) :
    ∀ (x : Str), endsWithSep a (x ++ y) = endsWithSep a y
  | [] => rfl
  | c :: x' => by
    obtain ⟨d, r, hdr⟩ : ∃ d r, x' ++ y = d :: r := by
      cases hxy : x' ++ y with
      | nil => exact absurd (List.append_eq_nil.mp hxy).2 hy
      | cons d r => exact ⟨d, r, rfl⟩
    rw [List.cons_append, hdr,
      show endsWithSep a (c :: d :: r) = endsWithSep a (d :: r) from rfl, ← hdr,
      endsWithSep_append hy x']

theorem endsWithSep_of_all_ne {a : Char} :
    ∀ (l : Str), (∀ c ∈ l, c ≠ a) → endsWithSep a l = false
  | [], _ => rfl
  | [c], h => by simp [endsWithSep, h c (by simp)]
  | c :: d :: r, h => by
    rw [show endsWithSep a (c :: d :: r) = endsWithSep a (d :: r) from rfl]
    exact endsWithSep_of_all_ne (d :: r) (fun e he => h e (List.mem_cons_of_mem c he))

theorem leadsWith_append (pat : Str) : ∀ (b : Str), leadsWith pat (pat ++ b) = true := by
  induction pat with
  | nil => intro b; rfl
  | cons p ps ih => intro b; simp [leadsWith, ih b]

theorem hasSegment_sandwich (pat : Str) :
    ∀ (x y : Str), hasSegment pat (x ++ pat ++ y) = true
  | [], y => by
    cases hp : pat with
    | nil =>
      cases y with
      | nil => rfl
      | cons c cs => simp [hasSegment, leadsWith]
    | cons p ps =>
      have hl := leadsWith_append (p :: ps) y
      simp only [List.nil_append, List.cons_append, hasSegment, Bool.or_eq_true]
      exact Or.inl hl
  | c :: x', y => by
    have ih := hasSegment_sandwich pat x' y
    simp only [List.cons_append, hasSegment, Bool.or_eq_true]
    exact Or.inr ih

/-! ### Stage lemmas for the toKebabCase pipeline -/

theorem mem_replaceUnderscores {s : Str} {c : Char}
    (h : c ∈ replaceUnderscores s) : (c = spaceChar ∨ c ∈ s) ∧ c.toNat ≠ 95 := by
  rw [replaceUnderscores] at h
  rcases List.mem_map.mp h with ⟨d, hd, rfl⟩
  by_cases h95 : d.toNat = 95
  · rw [if_pos h95]
    exact ⟨Or.inl rfl, by decide⟩
  · rw [if_neg h95]
    exact ⟨Or.inr hd, h95⟩

theorem replaceUnderscores_eq_self {s : Str}
    (h : ∀ c ∈ s, c.toNat ≠ 95) : replaceUnderscores s = s :=
  map_id_of s (fun c hc => if_neg (h c hc))

theorem mem_insertCamelSpaces :
    ∀ (l : Str) {c : Char}, c ∈ insertCamelSpaces l → c = spaceChar ∨ c ∈ l
  | [], c, h => by simp [insertCamelSpaces] at h
  | [d], c, h => by
    simp only [insertCamelSpaces] at h
    exact Or.inr h
  | c1 :: c2 :: rest, c, h => by
    simp only [insertCamelSpaces] at h
    split at h
    · rcases List.mem_cons.mp h with rfl | h'
      · exact Or.inr (by simp)
      · rcases List.mem_cons.mp h' with rfl | h''
        · exact Or.inl rfl
        · rcases mem_insertCamelSpaces (c2 :: rest) h'' with hs | hm
          · exact Or.inl hs
          · exact Or.inr (List.mem_cons_of_mem c1 hm)
    · rcases List.mem_cons.mp h with rfl | h'
      · exact Or.inr (by simp)
      · rcases mem_insertCamelSpaces (c2 :: rest) h' with hs | hm
        · exact Or.inl hs
        · exact Or.inr (List.mem_cons_of_mem c1 hm)

theorem insertCamelSpaces_eq_self :
    ∀ (l : Str), (∀ c ∈ l, isUpperAscii c = false) → insertCamelSpaces l = l
  | [], _ => rfl
  | [c], _ => rfl
  | c1 :: c2 :: rest, h => by
    simp only [insertCamelSpaces]
    rw [if_neg (by simp [h c2 (by simp)]),
      insertCamelSpaces_eq_self (c2 :: rest) (fun d hd => h d (List.mem_cons_of_mem c1 hd))]

theorem mem_insertUpperRunSpacesAux :
    ∀ (l : Str) (b : Bool) {c : Char},
      c ∈ insertUpperRunSpacesAux b l → c = spaceChar ∨ c ∈ l
  | [], b, c, h => by simp [insertUpperRunSpacesAux] at h
  | d :: rest, b, c, h => by
    simp only [insertUpperRunSpacesAux] at h
    split at h
    · split at h
      · rcases List.mem_cons.mp h with rfl | h'
        · exact Or.inr (by simp)
        · rcases mem_insertUpperRunSpacesAux rest true h' with hs | hm
          · exact Or.inl hs
          · exact Or.inr (List.mem_cons_of_mem d hm)
      · rcases List.mem_cons.mp h with rfl | h'
        · exact Or.inl rfl
        · rcases List.mem_cons.mp h' with rfl | h''
          · exact Or.inr (by simp)
          · rcases mem_insertUpperRunSpacesAux rest true h'' with hs | hm
            · exact Or.inl hs
            · exact Or.inr (List.mem_cons_of_mem d hm)
    · rcases List.mem_cons.mp h with rfl | h'
      · exact Or.inr (by simp)
      · rcases mem_insertUpperRunSpacesAux rest false h' with hs | hm
        · exact Or.inl hs
        · exact Or.inr (List.mem_cons_of_mem d hm)

theorem insertUpperRunSpacesAux_eq_self :
    ∀ (l : Str) (b : Bool), (∀ c ∈ l, isUpperAscii c = false) →
      insertUpperRunSpacesAux b l = l
  | [], _, _ => rfl
  | d :: rest, b, h => by
    simp only [insertUpperRunSpacesAux]
    rw [if_neg (by simp [h d (by simp)]),
      insertUpperRunSpacesAux_eq_self rest false (fun c hc => h c (List.mem_cons_of_mem d hc))]

theorem mem_collapseSpacesAux :
    ∀ (l : Str) (b : Bool) {c : Char},
      c ∈ collapseSpacesAux b l → c = spaceChar ∨ (c ∈ l ∧ isSpaceJS c = false)
  | [], b, c, h => by simp [collapseSpacesAux] at h
  | d :: rest, b, c, h => by
    simp only [collapseSpacesAux] at h
    split at h
    · split at h
      · rcases mem_collapseSpacesAux rest true h with hs | ⟨hm, hns⟩
        · exact Or.inl hs
        · exact Or.inr ⟨List.mem_cons_of_mem d hm, hns⟩
      · rcases List.mem_cons.mp h with rfl | h'
        · exact Or.inl rfl
        · rcases mem_collapseSpacesAux rest true h' with hs | ⟨hm, hns⟩
          · exact Or.inl hs
          · exact Or.inr ⟨List.mem_cons_of_mem d hm, hns⟩
    · rcases List.mem_cons.mp h with rfl | h'
      · rename_i hd
        exact Or.inr ⟨by simp, by simpa using hd⟩
      · rcases mem_collapseSpacesAux rest false h' with hs | ⟨hm, hns⟩
        · exact Or.inl hs
        · exact Or.inr ⟨List.mem_cons_of_mem d hm, hns⟩

theorem collapseSpacesAux_eq_self :
    ∀ (l : Str) (b : Bool), (∀ c ∈ l, isSpaceJS c = false) →
      collapseSpacesAux b l = l
  | [], _, _ => rfl
  | d :: rest, b, h => by
    simp only [collapseSpacesAux]
    rw [if_neg (by simp [h d (by simp)]),
      collapseSpacesAux_eq_self rest false (fun c hc => h c (List.mem_cons_of_mem d hc))]

theorem mem_spaceRunsToHyphensAux :
    ∀ (l : Str) (b : Bool) {c : Char},
      c ∈ spaceRunsToHyphensAux b l → c = hyphenChar ∨ (c ∈ l ∧ isSpaceJS c = false)
  | [], b, c, h => by simp [spaceRunsToHyphensAux] at h
  | d :: rest, b, c, h => by
    simp only [spaceRunsToHyphensAux] at h
    split at h
    · split at h
      · rcases mem_spaceRunsToHyphensAux rest true h with hs | ⟨hm, hns⟩
        · exact Or.inl hs
        · exact Or.inr ⟨List.mem_cons_of_mem d hm, hns⟩
      · rcases List.mem_cons.mp h with rfl | h'
        · exact Or.inl rfl
        · rcases mem_spaceRunsToHyphensAux rest true h' with hs | ⟨hm, hns⟩
          · exact Or.inl hs
          · exact Or.inr ⟨List.mem_cons_of_mem d hm, hns⟩
    · rcases List.mem_cons.mp h with rfl | h'
      · rename_i hd
        exact Or.inr ⟨by simp, by simpa using hd⟩
      · rcases mem_spaceRunsToHyphensAux rest false h' with hs | ⟨hm, hns⟩
        · exact Or.inl hs
        · exact Or.inr ⟨List.mem_cons_of_mem d hm, hns⟩

theorem spaceRunsToHyphensAux_eq_self :
    ∀ (l : Str) (b : Bool), (∀ c ∈ l, isSpaceJS c = false) →
      spaceRunsToHyphensAux b l = l
  | [], _, _ => rfl
  | d :: rest, b, h => by
    simp only [spaceRunsToHyphensAux]
    rw [if_neg (by simp [h d (by simp)]),
      spaceRunsToHyphensAux_eq_self rest false (fun c hc => h c (List.mem_cons_of_mem d hc))]

theorem spaceRunsToHyphensAux_props :
    ∀ (l : Str) (b : Bool), (∀ c ∈ l, c ≠ hyphenChar) →
      hasAdjPair hyphenChar (spaceRunsToHyphensAux b l) = false ∧
        (b = true → (spaceRunsToHyphensAux b l).head? ≠ some hyphenChar)
  | [], b, _ => ⟨rfl, fun _ => by simp [spaceRunsToHyphensAux]⟩
  | d :: rest, b, h => by
    have hrest : ∀ c ∈ rest, c ≠ hyphenChar :=
      fun c hc => h c (List.mem_cons_of_mem d hc)
    have ihT := spaceRunsToHyphensAux_props rest true hrest
    have ihF := spaceRunsToHyphensAux_props rest false hrest
    simp only [spaceRunsToHyphensAux]
    by_cases hsp : isSpaceJS d = true
    · rw [if_pos hsp]
      by_cases hb : b = true
      · rw [if_pos hb]
        exact ⟨ihT.1, fun _ => ihT.2 rfl⟩
      · rw [if_neg hb]
        refine ⟨?_, fun hbt => absurd hbt hb⟩
        rw [hasAdjPair_cons_of_head_ne (ihT.2 rfl)]
        exact ihT.1
    · rw [if_neg hsp]
      refine ⟨?_, fun _ => ?_⟩
      · rw [hasAdjPair_cons_of_ne (h d (by simp))]
        exact ihF.1
      · simp only [List.head?_cons, ne_eq, Option.some.injEq]
        exact h d (by simp)

/-! ### Lemmas about trimming and hyphen stripping -/

theorem trimEndJS_cons (c : Char) (rest : Str) :
    trimEndJS (c :: rest) =
      if isSpaceJS c && (trimEndJS rest).isEmpty then [] else c :: trimEndJS rest := rfl

theorem trimEndJS_decomp : ∀ (l : Str), ∃ k, l = trimEndJS l ++ k
  | [] => ⟨[], rfl⟩
  | c :: rest => by
    obtain ⟨k, hk⟩ := trimEndJS_decomp rest
    rw [trimEndJS_cons]
    by_cases hcond : (isSpaceJS c && (trimEndJS rest).isEmpty) = true
    · rw [if_pos hcond]
      exact ⟨c :: rest, rfl⟩
    · rw [if_neg hcond]
      exact ⟨k, by rw [List.cons_append, ← hk]⟩

theorem mem_trimEndJS {l : Str} {c : Char} (h : c ∈ trimEndJS l) : c ∈ l := by
  obtain ⟨k, hk⟩ := trimEndJS_decomp l
  rw [hk]
  exact List.mem_append.mpr (Or.inl h)

theorem trimEndJS_eq_self :
    ∀ (l : Str), (∀ c ∈ l, isSpaceJS c = false) → trimEndJS l = l
  | [], _ => rfl
  | c :: rest, h => by
    rw [trimEndJS_cons, trimEndJS_eq_self rest (fun d hd => h d (List.mem_cons_of_mem c hd)),
      if_neg (by simp [h c (by simp)])]

theorem mem_trimJS {l : Str} {c : Char} (h : c ∈ trimJS l) : c ∈ l := by
  rw [trimJS] at h
  exact mem_dropWhile (mem_trimEndJS h)

theorem trimJS_eq_self {l : Str} (h : ∀ c ∈ l, isSpaceJS c = false) : trimJS l = l := by
  rw [trimJS, dropWhile_eq_self_of h]
  exact trimEndJS_eq_self l h

theorem stripTrailingHyphens_cons (c : Char) (rest : Str) :
    stripTrailingHyphens (c :: rest) =
      if decide (c.toNat = 45) && (stripTrailingHyphens rest).isEmpty then []
      else c :: stripTrailingHyphens rest := rfl

theorem stripTrailingHyphens_decomp : ∀ (l : Str), ∃ k, l = stripTrailingHyphens l ++ k
  | [] => ⟨[], rfl⟩
  | c :: rest => by
    obtain ⟨k, hk⟩ := stripTrailingHyphens_decomp rest
    rw [stripTrailingHyphens_cons]
    by_cases hcond : (decide (c.toNat = 45) && (stripTrailingHyphens rest).isEmpty) = true
    · rw [if_pos hcond]
      exact ⟨c :: rest, rfl⟩
    · rw [if_neg hcond]
      exact ⟨k, by rw [List.cons_append, ← hk]⟩

theorem mem_stripTrailingHyphens {l : Str} {c : Char}
    (h : c ∈ stripTrailingHyphens l) : c ∈ l := by
  obtain ⟨k, hk⟩ := stripTrailingHyphens_decomp l
  rw [hk]
  exact List.mem_append.mpr (Or.inl h)

theorem stripTrailingHyphens_eq_self :
    ∀ (l : Str), endsWithSep hyphenChar l = false → stripTrailingHyphens l = l
  | [], _ => rfl
  | [c], h => by
    have hc : ¬(c = hyphenChar) := by simpa [endsWithSep] using h
    have h45 : ¬(c.toNat = 45) := fun h45 =>
      hc (char_toNat_inj (h45.trans (by decide : hyphenChar.toNat = 45).symm))
    rw [stripTrailingHyphens_cons, if_neg (by simp [h45])]
    rfl
  | c :: d :: rest, h => by
    have h' : endsWithSep hyphenChar (d :: rest) = false := h
    rw [stripTrailingHyphens_cons, stripTrailingHyphens_eq_self (d :: rest) h',
      if_neg (by simp)]

theorem stripTrailingHyphens_endsFalse :
    ∀ (l : Str), endsWithSep hyphenChar (stripTrailingHyphens l) = false
  | [] => rfl
  | c :: rest => by
    rw [stripTrailingHyphens_cons]
    by_cases hcond : (decide (c.toNat = 45) && (stripTrailingHyphens rest).isEmpty) = true
    · rw [if_pos hcond]
      rfl
    · rw [if_neg hcond]
      cases hrec : stripTrailingHyphens rest with
      | nil =>
        have h45 : ¬(c.toNat = 45) := by
          intro h45
          exact hcond (by rw [hrec]; simp [h45])
        have hc : ¬(c = hyphenChar) := fun he => h45 (by rw [he]; decide)
        simp [endsWithSep, hc]
      | cons d r =>
        have hrr := stripTrailingHyphens_endsFalse rest
        rw [hrec] at hrr
        exact hrr

theorem stripTrailingHyphens_cons_shape (c : Char) (rest : Str) :
    stripTrailingHyphens (c :: rest) = [] ∨
      ∃ r, stripTrailingHyphens (c :: rest) = c :: r := by
  rw [stripTrailingHyphens_cons]
  by_cases hcond : (decide (c.toNat = 45) && (stripTrailingHyphens rest).isEmpty) = true
  · rw [if_pos hcond]
    exact Or.inl rfl
  · rw [if_neg hcond]
    exact Or.inr ⟨stripTrailingHyphens rest, rfl⟩

theorem hasAdjPair_stripHyphens {y : Str}
    (h : hasAdjPair hyphenChar y = false) :
    hasAdjPair hyphenChar (stripHyphens y) = false := by
  have h1 : hasAdjPair hyphenChar (stripLeadingHyphens y) = false := by
    rw [stripLeadingHyphens]
    apply hasAdjPair_append_right (List.takeWhile (fun c => decide (c.toNat = 45)) y)
    rw [List.takeWhile_append_dropWhile]
    exact h
  show hasAdjPair hyphenChar (stripTrailingHyphens (stripLeadingHyphens y)) = false
  obtain ⟨k, hk⟩ := stripTrailingHyphens_decomp (stripLeadingHyphens y)
  apply hasAdjPair_append_left (stripTrailingHyphens (stripLeadingHyphens y)) (y := k)
  rw [← hk]
  exact h1

/-! ### Master lemmas for toKebabCase -/

theorem isLowerAscii_bounds {c : Char} (h : isLowerAscii c = true) :
    97 ≤ c.toNat ∧ c.toNat ≤ 122 := by
  simpa [isLowerAscii] using h

theorem isDigitAscii_bounds {c : Char} (h : isDigitAscii c = true) :
    48 ≤ c.toNat ∧ c.toNat ≤ 57 := by
  simpa [isDigitAscii] using h

theorem keep_class {d : Char} (hkeep : keepKebab d = true) (h95 : d.toNat ≠ 95)
    (hnsp : isSpaceJS d = false) :
    isLowerAscii (toLowerAscii d) = true ∨ isDigitAscii (toLowerAscii d) = true ∨
      toLowerAscii d = hyphenChar := by
  have hk : (isUpperAscii d = true ∨ isLowerAscii d = true ∨ isDigitAscii d = true ∨
      d.toNat = 95) ∨ isSpaceJS d = true ∨ d.toNat = 45 := by
    simpa [keepKebab, isWordChar, Bool.or_eq_true, or_assoc] using hkeep
  rcases hk with (hu | hl | hdg | h95') | hsp | h45
  · exact Or.inl (isLowerAscii_toLowerAscii_of_upper hu)
  · rw [toLowerAscii_eq_self]
    · exact Or.inl hl
    · have := isLowerAscii_bounds hl
      rw [isUpperAscii, decide_eq_false_iff_not]
      omega
  · rw [toLowerAscii_eq_self]
    · exact Or.inr (Or.inl hdg)
    · have := isDigitAscii_bounds hdg
      rw [isUpperAscii, decide_eq_false_iff_not]
      omega
  · exact absurd h95' h95
  · rw [hsp] at hnsp
    exact absurd hnsp (by decide)
  · rw [toLowerAscii_eq_self]
    · exact Or.inr (Or.inr (char_toNat_inj (h45.trans (by decide : hyphenChar.toNat = 45).symm)))
    · rw [isUpperAscii, decide_eq_false_iff_not]
      omega

theorem kebab_chars (s : Str) :
    ∀ c ∈ toKebabCaseStr s,
      isLowerAscii c = true ∨ isDigitAscii c = true ∨ c = hyphenChar := by
  intro c hc
  rw [toKebabCaseStr] at hc
  split at hc
  · simp at hc
  · have hc1 : c ∈ spaceRunsToHyphens
        ((collapseSpaces (trimJS
          ((insertUpperRunSpaces (insertCamelSpaces (replaceUnderscores s))).filter
            keepKebab))).map toLowerAscii) :=
      mem_dropWhile (mem_stripTrailingHyphens hc)
    rw [spaceRunsToHyphens] at hc1
    rcases mem_spaceRunsToHyphensAux _ false hc1 with hh | ⟨hmem, hnsp⟩
    · exact Or.inr (Or.inr hh)
    · rcases List.mem_map.mp hmem with ⟨d, hd, rfl⟩
      rw [collapseSpaces] at hd
      rcases mem_collapseSpacesAux _ false hd with rfl | ⟨hd2, hdnsp⟩
      · rw [show toLowerAscii spaceChar = spaceChar from by decide] at hnsp
        exact absurd hnsp (by decide)
      · have hd3 := mem_trimJS hd2
        have hkeep : keepKebab d = true := (List.mem_filter.mp hd3).2
        have hdX := (List.mem_filter.mp hd3).1
        rw [insertUpperRunSpaces] at hdX
        have h95 : d.toNat ≠ 95 := by
          rcases mem_insertUpperRunSpacesAux _ false hdX with rfl | hdX2
          · decide
          · rcases mem_insertCamelSpaces _ hdX2 with rfl | hdX3
            · decide
            · exact (mem_replaceUnderscores hdX3).2
        exact keep_class hkeep h95 hdnsp

theorem kebab_head (s : Str) : (toKebabCaseStr s).head? ≠ some hyphenChar := by
  rw [toKebabCaseStr]
  split
  · simp
  · show (stripTrailingHyphens (stripLeadingHyphens _)).head? ≠ some hyphenChar
    rw [stripLeadingHyphens]
    cases hdw : List.dropWhile (fun c => decide (c.toNat = 45)) (spaceRunsToHyphens _) with
    | nil => simp [stripTrailingHyphens]
    | cons c t =>
      have hc : decide (c.toNat = 45) = false := dropWhile_head_false _ hdw
      rcases stripTrailingHyphens_cons_shape c t with h0 | ⟨r, hr⟩
      · rw [h0]
        simp
      · rw [hr]
        simp only [List.head?_cons, ne_eq, Option.some.injEq]
        intro he
        rw [he] at hc
        exact absurd hc (by decide)

theorem kebab_ends (s : Str) :
    endsWithSep hyphenChar (toKebabCaseStr s) = false := by
  rw [toKebabCaseStr]
  split
  · rfl
  · exact stripTrailingHyphens_endsFalse _

theorem kebabClass_props {c : Char}
    (h : isLowerAscii c = true ∨ isDigitAscii c = true ∨ c = hyphenChar) :
    isUpperAscii c = false ∧ c.toNat ≠ 95 ∧ isSpaceJS c = false ∧
      keepKebab c = true ∧ toLowerAscii c = c := by
  have htn : (97 ≤ c.toNat ∧ c.toNat ≤ 122) ∨ (48 ≤ c.toNat ∧ c.toNat ≤ 57) ∨
      c.toNat = 45 := by
    rcases h with h | h | h
    · exact Or.inl (isLowerAscii_bounds h)
    · exact Or.inr (Or.inl (isDigitAscii_bounds h))
    · exact Or.inr (Or.inr (by rw [h]; decide))
  have hup : isUpperAscii c = false := by
    rw [isUpperAscii, decide_eq_false_iff_not]
    omega
  refine ⟨hup, by omega, ?_, ?_, toLowerAscii_eq_self hup⟩
  · rw [isSpaceJS, decide_eq_false_iff_not]
    omega
  · simp only [keepKebab, isWordChar, isUpperAscii, isLowerAscii, isDigitAscii, isSpaceJS,
      Bool.or_eq_true, decide_eq_true_eq]
    omega

theorem kebab_idem (s : Str) :
    toKebabCaseStr (toKebabCaseStr s) = toKebabCaseStr s := by
  have hchars := kebab_chars s
  have hhead := kebab_head s
  have hends := kebab_ends s
  generalize ht : toKebabCaseStr s = t at hchars hhead hends ⊢
  rw [toKebabCaseStr]
  cases t with
  | nil => rfl
  | cons c0 t0 =>
    rw [if_neg (by simp)]
    have h1 : ∀ c ∈ c0 :: t0, isUpperAscii c = false ∧ c.toNat ≠ 95 ∧
        isSpaceJS c = false ∧ keepKebab c = true ∧ toLowerAscii c = c :=
      fun c hc => kebabClass_props (hchars c hc)
    have e1 : replaceUnderscores (c0 :: t0) = c0 :: t0 :=
      replaceUnderscores_eq_self (fun c hc => (h1 c hc).2.1)
    have e2 : insertCamelSpaces (c0 :: t0) = c0 :: t0 :=
      insertCamelSpaces_eq_self _ (fun c hc => (h1 c hc).1)
    have e3 : insertUpperRunSpaces (c0 :: t0) = c0 :: t0 := by
      rw [insertUpperRunSpaces]
      exact insertUpperRunSpacesAux_eq_self _ false (fun c hc => (h1 c hc).1)
    have e4 : List.filter keepKebab (c0 :: t0) = c0 :: t0 :=
      List.filter_eq_self.mpr (fun c hc => (h1 c hc).2.2.2.1)
    have e5 : trimJS (c0 :: t0) = c0 :: t0 :=
      trimJS_eq_self (fun c hc => (h1 c hc).2.2.1)
    have e6 : collapseSpaces (c0 :: t0) = c0 :: t0 := by
      rw [collapseSpaces]
      exact collapseSpacesAux_eq_self _ false (fun c hc => (h1 c hc).2.2.1)
    have e7 : List.map toLowerAscii (c0 :: t0) = c0 :: t0 :=
      map_id_of _ (fun c hc => (h1 c hc).2.2.2.2)
    have e8 : spaceRunsToHyphens (c0 :: t0) = c0 :: t0 := by
      rw [spaceRunsToHyphens]
      exact spaceRunsToHyphensAux_eq_self _ false (fun c hc => (h1 c hc).2.2.1)
    have e9 : stripLeadingHyphens (c0 :: t0) = c0 :: t0 := by
      rw [stripLeadingHyphens]
      apply dropWhile_eq_self_of_head
      intro c hc
      obtain rfl : c0 = c := by simpa using hc
      rw [decide_eq_false_iff_not]
      rcases hchars c0 (by simp) with hl | hdg | hh
      · have := isLowerAscii_bounds hl
        omega
      · have := isDigitAscii_bounds hdg
        omega
      · exact absurd (by simp [hh] : (c0 :: t0 : Str).head? = some hyphenChar) hhead
    have e10 : stripTrailingHyphens (c0 :: t0) = c0 :: t0 :=
      stripTrailingHyphens_eq_self _ hends
    rw [e1, e2, e3, e4, e5, e6, e7, e8, stripHyphens, e9, e10]

theorem kebab_no_hyphen_noAdj {s : Str} (h : hyphenChar ∉ s) :
    hasAdjPair hyphenChar (toKebabCaseStr s) = false := by
  rw [toKebabCaseStr]
  split
  · rfl
  · apply hasAdjPair_stripHyphens
    rw [spaceRunsToHyphens]
    refine (spaceRunsToHyphensAux_props _ false ?_).1
    intro c hc
    rcases List.mem_map.mp hc with ⟨d, hd, rfl⟩
    rw [collapseSpaces] at hd
    have hdne : d = spaceChar ∨ d ≠ hyphenChar := by
      rcases mem_collapseSpacesAux _ false hd with rfl | ⟨hd2, -⟩
      · exact Or.inl rfl
      · have hdX := (List.mem_filter.mp (mem_trimJS hd2)).1
        rw [insertUpperRunSpaces] at hdX
        rcases mem_insertUpperRunSpacesAux _ false hdX with rfl | hdX2
        · exact Or.inl rfl
        · rcases mem_insertCamelSpaces _ hdX2 with rfl | hdX3
          · exact Or.inl rfl
          · rcases (mem_replaceUnderscores hdX3).1 with rfl | hds
            · exact Or.inl rfl
            · exact Or.inr (fun he => h (he ▸ hds))
    by_cases hup : isUpperAscii d = true
    · have hlow := isLowerAscii_toLowerAscii_of_upper hup
      intro he
      rw [he] at hlow
      exact absurd hlow (by decide)
    · rw [toLowerAscii_eq_self (by simpa using hup)]
      rcases hdne with rfl | hne
      · decide
      · exact hne

/-! ### Lemmas for the toDotCase pipeline -/

theorem splitWordsAux_nil (acc : Str) :
    splitWordsAux acc [] = if acc.isEmpty then [] else [acc.reverse] := rfl

theorem splitWordsAux_cons (acc : Str) (c : Char) (rest : Str) :
    splitWordsAux acc (c :: rest) =
      if isSepDot c then
        if acc.isEmpty then splitWordsAux [] rest
        else acc.reverse :: splitWordsAux [] rest
      else splitWordsAux (c :: acc) rest := rfl

theorem splitWordsAux_words :
    ∀ (l : Str) (acc : Str), (∀ c ∈ acc, isSepDot c = false) →
      ∀ w ∈ splitWordsAux acc l, w ≠ [] ∧ ∀ c ∈ w, isSepDot c = false
  | [], acc, hacc => by
    rw [splitWordsAux_nil]
    by_cases h0 : acc.isEmpty = true
    · rw [if_pos h0]
      intro w hw
      simp at hw
    · rw [if_neg h0]
      intro w hw
      obtain rfl : w = acc.reverse := by simpa using hw
      have hne : acc ≠ [] := fun he => h0 (by simp [he])
      refine ⟨by rw [ne_eq, List.reverse_eq_nil_iff]; exact hne, ?_⟩
      intro c hc
      exact hacc c (List.mem_reverse.mp hc)
  | c :: rest, acc, hacc => by
    rw [splitWordsAux_cons]
    by_cases hsep : isSepDot c = true
    · rw [if_pos hsep]
      by_cases h0 : acc.isEmpty = true
      · rw [if_pos h0]
        exact splitWordsAux_words rest [] (by simp)
      · rw [if_neg h0]
        intro w hw
        rcases List.mem_cons.mp hw with rfl | hw'
        · have hne : acc ≠ [] := fun he => h0 (by simp [he])
          refine ⟨by rw [ne_eq, List.reverse_eq_nil_iff]; exact hne, ?_⟩
          intro d hd
          exact hacc d (List.mem_reverse.mp hd)
        · exact splitWordsAux_words rest [] (by simp) w hw'
    · rw [if_neg hsep]
      refine splitWordsAux_words rest (c :: acc) ?_
      intro d hd
      rcases List.mem_cons.mp hd with rfl | hd'
      · simpa using hsep
      · exact hacc d hd'

theorem splitWordsAux_append :
    ∀ (w : Str) (acc t : Str), (∀ c ∈ w, isSepDot c = false) →
      splitWordsAux acc (w ++ t) = splitWordsAux (w.reverse ++ acc) t
  | [], acc, t, _ => by simp
  | c :: w', acc, t, h => by
    rw [List.cons_append, splitWordsAux_cons, if_neg (by simp [h c (by simp)]),
      splitWordsAux_append w' (c :: acc) t (fun d hd => h d (by simp [hd]))]
    congr 1
    rw [List.reverse_cons, List.append_assoc, List.singleton_append]

theorem joinDot_cons_cons (w v : Str) (ws : List Str) :
    joinDot (w :: v :: ws) = w ++ dotChar :: joinDot (v :: ws) := rfl

theorem splitWords_joinDot :
    ∀ (ws : List Str), (∀ w ∈ ws, w ≠ [] ∧ ∀ c ∈ w, isSepDot c = false) →
      splitWords (joinDot ws) = ws
  | [], _ => rfl
  | [w], h => by
    obtain ⟨hne, hchars⟩ := h w (by simp)
    rw [splitWords, show joinDot [w] = w from rfl]
    have haux := splitWordsAux_append w [] [] hchars
    rw [List.append_nil, List.append_nil] at haux
    rw [haux, splitWordsAux_nil,
      if_neg (by simp only [List.isEmpty_iff, List.reverse_eq_nil_iff]; exact hne),
      List.reverse_reverse]
  | w :: v :: ws', h => by
    obtain ⟨hne, hchars⟩ := h w (by simp)
    rw [splitWords, joinDot_cons_cons, splitWordsAux_append w [] _ hchars, List.append_nil,
      splitWordsAux_cons, if_pos (by decide : isSepDot dotChar = true),
      if_neg (by simp only [List.isEmpty_iff, List.reverse_eq_nil_iff]; exact hne),
      List.reverse_reverse]
    congr 1
    exact splitWords_joinDot (v :: ws') (fun u hu => h u (List.mem_cons_of_mem w hu))

theorem mem_joinDot :
    ∀ (ws : List Str) {c : Char}, c ∈ joinDot ws → c = dotChar ∨ ∃ w ∈ ws, c ∈ w
  | [], c, h => by simp [joinDot] at h
  | [w], c, h => Or.inr ⟨w, by simp, h⟩
  | w :: v :: ws', c, h => by
    rw [joinDot_cons_cons] at h
    rcases List.mem_append.mp h with h1 | h2
    · exact Or.inr ⟨w, by simp, h1⟩
    · rcases List.mem_cons.mp h2 with rfl | h3
      · exact Or.inl rfl
      · rcases mem_joinDot (v :: ws') h3 with h4 | ⟨u, hu, hcu⟩
        · exact Or.inl h4
        · exact Or.inr ⟨u, List.mem_cons_of_mem w hu, hcu⟩

theorem joinDot_ne_nil (w : Str) (ws : List Str) (h : w ≠ []) :
    joinDot (w :: ws) ≠ [] := by
  cases ws with
  | nil => exact h
  | cons v ws' =>
    rw [joinDot_cons_cons]
    intro he
    exact h (List.append_eq_nil.mp he).1

theorem joinDot_head (w : Str) (ws : List Str) (h : w ≠ []) :
    (joinDot (w :: ws)).head? = w.head? := by
  cases ws with
  | nil => rfl
  | cons v ws' =>
    rw [joinDot_cons_cons]
    cases w with
    | nil => exact absurd rfl h
    | cons c w' => rfl

theorem joinDot_endsWith :
    ∀ (ws : List Str), (∀ w ∈ ws, w ≠ [] ∧ ∀ c ∈ w, c ≠ dotChar) →
      endsWithSep dotChar (joinDot ws) = false
  | [], _ => rfl
  | [w], h => endsWithSep_of_all_ne _ (h w (by simp)).2
  | w :: v :: ws', h => by
    rw [joinDot_cons_cons, endsWithSep_append (by simp) w]
    have hjd : joinDot (v :: ws') ≠ [] := joinDot_ne_nil v ws' (h v (by simp)).1
    obtain ⟨d, r, hdr⟩ : ∃ d r, joinDot (v :: ws') = d :: r := by
      cases hx : joinDot (v :: ws') with
      | nil => exact absurd hx hjd
      | cons d r => exact ⟨d, r, rfl⟩
    rw [hdr, show endsWithSep dotChar (dotChar :: d :: r) = endsWithSep dotChar (d :: r) from rfl,
      ← hdr]
    exact joinDot_endsWith (v :: ws') (fun u hu => h u (List.mem_cons_of_mem w hu))

theorem joinDot_noAdj :
    ∀ (ws : List Str), (∀ w ∈ ws, w ≠ [] ∧ ∀ c ∈ w, c ≠ dotChar) →
      hasAdjPair dotChar (joinDot ws) = false
  | [], _ => rfl
  | [w], h => hasAdjPair_of_all_ne (h w (by simp)).2
  | w :: v :: ws', h => by
    rw [joinDot_cons_cons]
    apply hasAdjPair_append_of w (h w (by simp)).2
    have hhead : (joinDot (v :: ws')).head? ≠ some dotChar := by
      rw [joinDot_head v ws' (h v (by simp)).1]
      cases hv : v with
      | nil => exact absurd hv (h v (by simp)).1
      | cons c v' =>
        simp only [List.head?_cons, ne_eq, Option.some.injEq]
        exact (h v (by simp)).2 c (by rw [hv]; simp)
    rw [hasAdjPair_cons_of_head_ne hhead]
    exact joinDot_noAdj (v :: ws') (fun u hu => h u (List.mem_cons_of_mem w hu))

theorem isSepDot_false_props {c : Char} (h : isSepDot c = false) :
    isSpaceJS c = false ∧ c ≠ dotChar := by
  simp only [isSepDot, Bool.or_eq_false_iff] at h
  refine ⟨h.1.1.1, ?_⟩
  intro he
  have := h.2
  rw [he] at this
  exact absurd this (by decide)

theorem isSepDot_false_of_lower {c : Char} (h : isLowerAscii c = true) :
    isSepDot c = false := by
  have := isLowerAscii_bounds h
  simp only [isSepDot, isSpaceJS, isPunctAscii, Bool.or_eq_false_iff,
    decide_eq_false_iff_not]
  omega

theorem lowered_char_props {d : Char} (hd : isSepDot d = false) :
    isSepDot (toLowerAscii d) = false ∧ isUpperAscii (toLowerAscii d) = false := by
  refine ⟨?_, isUpperAscii_toLowerAscii d⟩
  by_cases hup : isUpperAscii d = true
  · exact isSepDot_false_of_lower (isLowerAscii_toLowerAscii_of_upper hup)
  · rw [toLowerAscii_eq_self (by simpa using hup)]
    exact hd

/-! ### Master lemmas for toDotCase -/

theorem toDotCaseStr_eq (s : Str) :
    toDotCaseStr s = [] ∨
      ∃ w ws, splitWords (trimJS s) = w :: ws ∧
        toDotCaseStr s = joinDot ((w :: ws).map (fun u => u.map toLowerAscii)) := by
  rw [toDotCaseStr]
  by_cases h1 : (trimJS s).isEmpty = true
  · rw [if_pos h1]
    exact Or.inl rfl
  · rw [if_neg h1]
    by_cases h2 : (splitWords (trimJS s)).isEmpty = true
    · rw [if_pos h2]
      exact Or.inl rfl
    · rw [if_neg h2]
      cases hsw : splitWords (trimJS s) with
      | nil => rw [hsw] at h2; exact absurd rfl h2
      | cons w ws => exact Or.inr ⟨w, ws, rfl, rfl⟩

theorem dot_words_props (s : Str) {w : Str} {ws : List Str}
    (hsw : splitWords (trimJS s) = w :: ws) :
    ∀ u ∈ (w :: ws).map (fun u => u.map toLowerAscii),
      u ≠ [] ∧ ∀ c ∈ u, isSepDot c = false ∧ isUpperAscii c = false := by
  intro u hu
  rcases List.mem_map.mp hu with ⟨v, hv, rfl⟩
  obtain ⟨hvne, hvchars⟩ :=
    splitWordsAux_words (trimJS s) [] (by simp) v (by rw [← hsw] at hv; exact hv)
  refine ⟨by rw [ne_eq, List.map_eq_nil_iff]; exact hvne, ?_⟩
  intro c hc
  rcases List.mem_map.mp hc with ⟨d, hd, rfl⟩
  exact lowered_char_props (hvchars d hd)

theorem dot_shape (s : Str) :
    (toDotCaseStr s).head? ≠ some dotChar ∧
      endsWithSep dotChar (toDotCaseStr s) = false ∧
      hasAdjPair dotChar (toDotCaseStr s) = false := by
  rcases toDotCaseStr_eq s with h0 | ⟨w, ws, hsw, heq⟩
  · rw [h0]
    exact ⟨by simp, rfl, rfl⟩
  · have hprops := dot_words_props s hsw
    have hprops' : ∀ u ∈ (w :: ws).map (fun u => u.map toLowerAscii),
        u ≠ [] ∧ ∀ c ∈ u, c ≠ dotChar :=
      fun u hu => ⟨(hprops u hu).1,
        fun c hc => (isSepDot_false_props ((hprops u hu).2 c hc).1).2⟩
    rw [heq]
    rw [List.map_cons] at hprops' ⊢
    refine ⟨?_, ?_, ?_⟩
    · have hwne := (hprops' (List.map toLowerAscii w) (by simp)).1
      rw [joinDot_head _ _ hwne]
      cases hfw : List.map toLowerAscii w with
      | nil => rw [hfw] at hwne; exact absurd rfl hwne
      | cons c r =>
        rw [hfw] at hprops'
        simp only [List.head?_cons, ne_eq, Option.some.injEq]
        exact (hprops' (c :: r) (by simp)).2 c (by simp)
    · exact joinDot_endsWith _ hprops'
    · exact joinDot_noAdj _ hprops'

theorem dot_chars (s : Str) :
    ∀ c ∈ toDotCaseStr s, c = dotChar ∨ (isSepDot c = false ∧ isUpperAscii c = false) := by
  intro c hc
  rcases toDotCaseStr_eq s with h0 | ⟨w, ws, hsw, heq⟩
  · rw [h0] at hc
    simp at hc
  · rw [heq] at hc
    rcases mem_joinDot _ hc with rfl | ⟨u, hu, hcu⟩
    · exact Or.inl rfl
    · exact Or.inr ((dot_words_props s hsw u hu).2 c hcu)

theorem dot_idem (s : Str) : toDotCaseStr (toDotCaseStr s) = toDotCaseStr s := by
  rcases toDotCaseStr_eq s with h0 | ⟨w, ws, hsw, heq⟩
  · rw [h0]
    rfl
  · have hprops := dot_words_props s hsw
    have hWS : ∀ u ∈ (w :: ws).map (fun u => u.map toLowerAscii),
        u ≠ [] ∧ ∀ c ∈ u, isSepDot c = false :=
      fun u hu => ⟨(hprops u hu).1, fun c hc => ((hprops u hu).2 c hc).1⟩
    have hout_chars : ∀ c ∈ joinDot ((w :: ws).map (fun u => u.map toLowerAscii)),
        isSpaceJS c = false := by
      intro c hc
      rcases mem_joinDot _ hc with rfl | ⟨u, hu, hcu⟩
      · decide
      · exact (isSepDot_false_props ((hWS u hu).2 c hcu)).1
    have htrim := trimJS_eq_self hout_chars
    have hne : joinDot ((w :: ws).map (fun u => u.map toLowerAscii)) ≠ [] := by
      rw [List.map_cons]
      exact joinDot_ne_nil _ _ (by rw [List.map_cons] at hprops; exact (hprops _ (by simp)).1)
    have hsplit := splitWords_joinDot _ hWS
    have hmapid : ((w :: ws).map (fun u => u.map toLowerAscii)).map
        (fun u => u.map toLowerAscii) = (w :: ws).map (fun u => u.map toLowerAscii) :=
      map_id_of _ (fun u hu =>
        map_id_of u (fun c hc => toLowerAscii_eq_self ((hprops u hu).2 c hc).2))
    rw [heq, toDotCaseStr, htrim,
      if_neg (by simp only [List.isEmpty_iff]; exact hne),
      hsplit, if_neg (by simp), hmapid]

/-! ### Error-message lemmas -/

theorem errMsg_segments (v : JSValue) :
    hasSegment (jsTypeof v) (kebabErrorMsg v) = true ∧
    hasSegment (jsToString v) (kebabErrorMsg v) = true ∧
    hasSegment (jsTypeof v) (dotErrorMsg v) = true ∧
    hasSegment (jsToString v) (dotErrorMsg v) = true := by
  refine ⟨?_, ?_, ?_, ?_⟩
  · simpa [kebabErrorMsg, List.append_assoc] using
      hasSegment_sandwich (jsTypeof v) (("Expected string input, received ").toList)
        ((". Value: ").toList ++ jsToString v)
  · simpa [kebabErrorMsg, List.append_assoc] using
      hasSegment_sandwich (jsToString v)
        ((("Expected string input, received ").toList) ++ jsTypeof v ++
          ((". Value: ").toList)) []
  · simpa [dotErrorMsg, List.append_assoc] using
      hasSegment_sandwich (jsTypeof v)
        (("Expected a string, null, or undefined, but received ").toList)
        (((": ").toList) ++ jsToString v)
  · simpa [dotErrorMsg, List.append_assoc] using
      hasSegment_sandwich (jsToString v)
        ((("Expected a string, null, or undefined, but received ").toList) ++ jsTypeof v ++
          ((": ").toList)) []

/-! ### Remaining claim theorems -/

/-- C5: `toKebabCase` and `toDotCase` raise the `TypeError` exactly when the
input is present (not null/undefined) and not a string, the error message
embeds the runtime `typeof` name and the `String(value)` rendering of the
offending value, and every other input returns a string without raising. -/
theorem c5_type_validation (v : JSValue) :
    ((isStringV v = false ∧ isAbsentV v = false) →
      ∃ m₁ m₂, toKebabCaseJS v = .typeError m₁ ∧
        hasSegment (jsTypeof v) m₁ = true ∧ hasSegment (jsToString v) m₁ = true ∧
        toDotCaseJS v = .typeError m₂ ∧
        hasSegment (jsTypeof v) m₂ = true ∧ hasSegment (jsToString v) m₂ = true) ∧
    ((isStringV v = true ∨ isAbsentV v = true) →
      ∃ r₁ r₂, toKebabCaseJS v = .ok r₁ ∧ toDotCaseJS v = .ok r₂) := by
  cases v with
  | nullV =>
    exact ⟨fun h => by simp [isAbsentV] at h, fun _ => ⟨[], [], rfl, rfl⟩⟩
  | undefinedV =>
    exact ⟨fun h => by simp [isAbsentV] at h, fun _ => ⟨[], [], rfl, rfl⟩⟩
  | strV s =>
    exact ⟨fun h => by simp [isStringV] at h,
      fun _ => ⟨toKebabCaseStr s, toDotCaseStr s, rfl, rfl⟩⟩
  | numberV n =>
    refine ⟨fun _ => ?_, fun h => by simp [isStringV, isAbsentV] at h⟩
    obtain ⟨h1, h2, h3, h4⟩ := errMsg_segments (.numberV n)
    exact ⟨kebabErrorMsg (.numberV n), dotErrorMsg (.numberV n), rfl, h1, h2, rfl, h3, h4⟩
  | boolV b =>
    refine ⟨fun _ => ?_, fun h => by simp [isStringV, isAbsentV] at h⟩
    obtain ⟨h1, h2, h3, h4⟩ := errMsg_segments (.boolV b)
    exact ⟨kebabErrorMsg (.boolV b), dotErrorMsg (.boolV b), rfl, h1, h2, rfl, h3, h4⟩
  | objectV r =>
    refine ⟨fun _ => ?_, fun h => by simp [isStringV, isAbsentV] at h⟩
    obtain ⟨h1, h2, h3, h4⟩ := errMsg_segments (.objectV r)
    exact ⟨kebabErrorMsg (.objectV r), dotErrorMsg (.objectV r), rfl, h1, h2, rfl, h3, h4⟩
  | arrayV r =>
    refine ⟨fun _ => ?_, fun h => by simp [isStringV, isAbsentV] at h⟩
    obtain ⟨h1, h2, h3, h4⟩ := errMsg_segments (.arrayV r)
    exact ⟨kebabErrorMsg (.arrayV r), dotErrorMsg (.arrayV r), rfl, h1, h2, rfl, h3, h4⟩

/-- C5 witness: at the concrete invalid input `123`, both functions throw
and the message contains the type name `number` and the rendering `123`. -/
theorem c5_witness :
    ∃ m₁ m₂, toKebabCaseJS (.numberV 123) = .typeError m₁ ∧
      hasSegment (("number").toList) m₁ = true ∧
      hasSegment (("123").toList) m₁ = true ∧
      toDotCaseJS (.numberV 123) = .typeError m₂ ∧
      hasSegment (("number").toList) m₂ = true ∧
      hasSegment (("123").toList) m₂ = true :=
  (c5_type_validation (.numberV 123)).1 ⟨rfl, rfl⟩

/-- C3 counterexample: the input `a - b` (a hyphen surrounded by spaces)
produces `a---b`, whose hyphens include two adjacent ones — contradicting
the claim that the output never contains two consecutive hyphens and that
such an input yields a single hyphen separator. -/
theorem c3_counterexample :
    toKebabCaseStr (("a - b").toList) = ("a---b").toList ∧
    hasAdjPair hyphenChar (toKebabCaseStr (("a - b").toList)) = true := by
  exact ⟨by rfl, by rfl⟩

/-- C3 (amended): in `toKebabCase` only underscores are replaced by the
word-boundary marker; hyphens pass through unchanged, so consecutive output
hyphens can only come from input hyphens — for every input containing no
hyphen character the output never contains two consecutive hyphens. -/
theorem c3_no_adjacent_hyphens_when_hyphen_free (s : Str) (h : hyphenChar ∉ s) :
    hasAdjPair hyphenChar (toKebabCaseStr s) = false :=
  kebab_no_hyphen_noAdj h

/-- C3 witness: the hyphen-free input `hello  world!` satisfies the
hypothesis and its kebab output has no adjacent hyphen pair. -/
theorem c3_witness :
    hyphenChar ∉ (("hello  world!").toList) ∧
    hasAdjPair hyphenChar (toKebabCaseStr (("hello  world!").toList)) = false :=
  ⟨by decide, c3_no_adjacent_hyphens_when_hyphen_free _ (by decide)⟩

/-- C8: each conversion is idempotent on string inputs — re-applying
`toKebabCase` or `toDotCase` to its own output reproduces that output
(the dot part is stated for ASCII inputs, where the embedding of `\p{P}`
and `toLowerCase` is exact), and the `toCamelCase` stub trivially
reproduces its own (undefined) output. -/
theorem c8_idempotent (s : Str) :
    toKebabCaseStr (toKebabCaseStr s) = toKebabCaseStr s ∧
    (asciiOnly s = true → toDotCaseStr (toDotCaseStr s) = toDotCaseStr s) ∧
    toCamelCaseJS (toCamelCaseJS (.strV s)) = toCamelCaseJS (.strV s) :=
  ⟨kebab_idem s, fun _ => dot_idem s, rfl⟩

/-- C8 witness: idempotence instantiated at the concrete ASCII input
`Hello-World  mix`. -/
theorem c8_witness :
    asciiOnly (("Hello-World  mix").toList) = true ∧
    toKebabCaseStr (toKebabCaseStr (("Hello-World  mix").toList)) =
      toKebabCaseStr (("Hello-World  mix").toList) ∧
    toDotCaseStr (toDotCaseStr (("Hello-World  mix").toList)) =
      toDotCaseStr (("Hello-World  mix").toList) ∧
    toCamelCaseJS (toCamelCaseJS (.strV (("Hello-World  mix").toList))) =
      toCamelCaseJS (.strV (("Hello-World  mix").toList)) :=
  ⟨by decide, (c8_idempotent (("Hello-World  mix").toList)).1,
    (c8_idempotent (("Hello-World  mix").toList)).2.1 (by decide),
    (c8_idempotent (("Hello-World  mix").toList)).2.2⟩

/-- C9 counterexample: `+` is not Unicode punctuation, so `toDotCase`
keeps it — on the input `a+b` the output is `a+b`, which contains a
character that is neither a letter, a digit, nor the dot separator,
contradicting the claim. -/
theorem c9_counterexample :
    toDotCaseStr (("a+b").toList) = ("a+b").toList ∧
    ((toDotCaseStr (("a+b").toList)).all
      (fun c => isLowerAscii c || isUpperAscii c || isDigitAscii c ||
        decide (c = dotChar))) = false := by
  exact ⟨by rfl, by rfl⟩

/-- C9 (amended): every character of the `toKebabCase` output is a
lowercase letter, a digit or a hyphen; every character of the `toDotCase`
output (for ASCII inputs) is either the dot separator or a non-separator,
non-uppercase character — whitespace, hyphens, underscores and punctuation
are always removed, but symbol characters outside `\p{P}` (such as `+`,
`=`, `~`) are kept inside words. -/
theorem c9_output_charset (s : Str) :
    (∀ c ∈ toKebabCaseStr s,
      isLowerAscii c = true ∨ isDigitAscii c = true ∨ c = hyphenChar) ∧
    (asciiOnly s = true →
      ∀ c ∈ toDotCaseStr s,
        c = dotChar ∨ (isSepDot c = false ∧ isUpperAscii c = false)) :=
  ⟨kebab_chars s, fun _ => dot_chars s⟩

/-- C9 witness: instantiated at the ASCII input `hello world`, at the
character `h` (code 104) of the kebab output and the character `.`
(code 46) of the dot output. -/
theorem c9_witness :
    (isLowerAscii (Char.ofNat 104) = true ∨ isDigitAscii (Char.ofNat 104) = true ∨
      Char.ofNat 104 = hyphenChar) ∧
    (Char.ofNat 46 = dotChar ∨
      (isSepDot (Char.ofNat 46) = false ∧ isUpperAscii (Char.ofNat 46) = false)) :=
  ⟨(c9_output_charset (("hello world").toList)).1 (Char.ofNat 104) (by decide),
    (c9_output_charset (("hello world").toList)).2 (by decide) (Char.ofNat 46) (by decide)⟩

/-- C10: the `toKebabCase` output never begins or ends with a hyphen and
contains no uppercase letters, underscores or whitespace; the `toDotCase`
output (for ASCII inputs) never begins or ends with a dot and never
contains two consecutive dots. -/
theorem c10_output_shape (s : Str) :
    (toKebabCaseStr s).head? ≠ some hyphenChar ∧
    endsWithSep hyphenChar (toKebabCaseStr s) = false ∧
    (∀ c ∈ toKebabCaseStr s,
      isUpperAscii c = false ∧ c ≠ underscoreChar ∧ isSpaceJS c = false) ∧
    (asciiOnly s = true →
      (toDotCaseStr s).head? ≠ some dotChar ∧
      endsWithSep dotChar (toDotCaseStr s) = false ∧
      hasAdjPair dotChar (toDotCaseStr s) = false) := by
  refine ⟨kebab_head s, kebab_ends s, ?_, fun _ => dot_shape s⟩
  intro c hc
  have h := kebabClass_props (kebab_chars s c hc)
  exact ⟨h.1, fun he => h.2.1 (by rw [he]; decide), h.2.2.1⟩

/-- C10 witness: instantiated at the concrete ASCII input
`Hello_World  x!` and, for the character-wise part, at the character `h`
(code 104) of its kebab output. -/
theorem c10_witness :
    (toKebabCaseStr (("Hello_World  x!").toList)).head? ≠ some hyphenChar ∧
    endsWithSep hyphenChar (toKebabCaseStr (("Hello_World  x!").toList)) = false ∧
    (isUpperAscii (Char.ofNat 104) = false ∧ Char.ofNat 104 ≠ underscoreChar ∧
      isSpaceJS (Char.ofNat 104) = false) ∧
    ((toDotCaseStr (("Hello_World  x!").toList)).head? ≠ some dotChar ∧
      endsWithSep dotChar (toDotCaseStr (("Hello_World  x!").toList)) = false ∧
      hasAdjPair dotChar (toDotCaseStr (("Hello_World  x!").toList)) = false) :=
  ⟨(c10_output_shape (("Hello_World  x!").toList)).1,
    (c10_output_shape (("Hello_World  x!").toList)).2.1,
    (c10_output_shape (("Hello_World  x!").toList)).2.2.1 (Char.ofNat 104) (by decide),
    (c10_output_shape (("Hello_World  x!").toList)).2.2.2 (by decide)⟩

end CaseConv
